import Mathlib

/-!
# Verification of the GBA memory copy/move engine (`src/backup/src/mem_fns.rs`)

Shallow embedding of the ARM assembly routines `__aeabi_memcpy*`,
`__aeabi_memmove*`, `memcpy`, `memmove` and the internal `reverse_copy_u*`
helpers.

Modelling conventions:
* Memory is a total function from 32-bit byte addresses to byte values
  (`Mem := Nat → Nat`).  Every memory access resolves its address modulo
  `2^32` (`wrap`), matching 32-bit register arithmetic.
* Pointer registers are carried as plain naturals; decrementing a pointer by
  `k` is modelled by adding `2^32 - k`, which is congruent modulo `2^32` and
  therefore resolves to the same addresses under `wrap`.
* The byte-count register is a 32-bit value.  The ARM flag conditions used by
  the loops after `subs` are signed comparisons:
  `gt` after `subs rC, rC, #k` holds iff the signed view of the old count
  exceeds `k`, i.e. iff `k < c ∧ c < 2^31`; `ge` similarly with `k ≤ c`.
  The post-`subs` register value is `(c + 2^32 - k) % 2^32`.
* A multi-byte load/store pair (`ldm`/`stm`, `ldrh`/`strh`, ...) first reads
  all of its bytes and then writes all of its bytes; this is `chunk`.
* `chunk` is byte-exact at its raw addresses and thereby idealizes misaligned
  multi-byte accesses: on the ARMv4 target a misaligned `ldr`/`ldrh` loads
  from the force-aligned address with the result rotated, and
  `str`/`strh`/`ldm`/`stm` force-align the address.  Executions whose every
  multi-byte access is aligned are therefore modelled hardware-exactly;
  paths that reach a misaligned multi-byte access (reachable only through
  the alignment-fixup defects recorded in the results) are idealized, and
  the corresponding claims are settled from the pointer values, which the
  model tracks exactly.
-/

/-- Byte-addressed memory: a total map from addresses to byte values. -/
def Mem : Type := Nat → Nat

/-- Reduce an address or register value modulo `2^32`. -/
def wrap (a : Nat) : Nat := a % 4294967296

/-- The byte offset of address `a` from base pointer `d`, modulo `2^32`:
the unique `i < 2^32` with `wrap (d + i) = a` (for `a < 2^32`). -/
def offsetOf (a d : Nat) : Nat := (a + 4294967296 - d % 4294967296) % 4294967296

/-- A `k`-byte load/store pair: bytes `src[0..k)` are all read from the
pre-state, then written to `dest[0..k)`.  Addresses resolve modulo `2^32`:
address `a` is written exactly when its offset from `dest` is below `k`.
This is byte-exact at the raw addresses and so idealizes misaligned accesses
(see the header); it is hardware-exact whenever the access is aligned. -/
def chunk (dest src : Nat) (k : Nat) (m : Mem) : Mem :=
  fun a =>
    if a < 4294967296 ∧ offsetOf a dest < k then m (wrap (src + offsetOf a dest))
    else m a

/-!
## Forward copy family (`__aeabi_memcpy1/2/4/8`, `__aeabi_memcpy`, `memcpy`)
-/

/-- Modelled from the spec: `__aeabi_memcpy1` is referenced by
`__aeabi_memcpy` (lines 137, 142, 166) but its definition is not among the
sources at hand.  Per the spec it is the byte-granularity-safe copy tier: a
forward byte-by-byte copy loop with no alignment requirement, for which a
zero byte count performs no memory access. -/
def __aeabi_memcpy1 (dest src byte_count : Nat) (m : Mem) : Mem :=
  match byte_count with
  | 0 => m
  | Nat.succ c => __aeabi_memcpy1 (dest + 1) (src + 1) c (chunk dest src 1 m)

/-- The halfword loop of `__aeabi_memcpy2` (lines 27-31):
`1: subs c,#2; ldrhge t,[src],#2; strhge t,[dest],#2; bgt 1b`.
Copies while the signed count is `≥ 2`, loops while it is `> 2`; the
returned count register holds the wrapped `subs` result. -/
def memcpy2Loop (dest src c : Nat) (m : Mem) : Nat × Nat × Nat × Mem :=
  if h : 2 < c ∧ c < 2147483648 then      -- bgt after subs
    memcpy2Loop (dest + 2) (src + 2) (c - 2) (chunk dest src 2 m)
  else if 2 ≤ c ∧ c < 2147483648 then     -- ge holds, gt fails: final halfword
    (dest + 2, src + 2, 0, chunk dest src 2 m)
  else                                     -- ge fails: no copy, register wraps
    (dest, src, wrap (c + 4294967294), m)
termination_by c
decreasing_by omega

/-- `__aeabi_memcpy2` (lines 23-43): the halfword loop followed by
`if byte_count != 0 { dest.write_volatile(src.read_volatile()) }` on the
loop's final register values. -/
def __aeabi_memcpy2 (dest src byte_count : Nat) (m : Mem) : Mem :=
  match memcpy2Loop dest src byte_count m with
  | (d, s, c, m1) => if c ≠ 0 then chunk d s 1 m1 else m1

/-- The 32-byte block loop of `__aeabi_memcpy4` (lines 67-71):
`1: subs r2,#32; ldmge r1!,{r3-r9,r12}; stmge r0!,{...}; bgt 1b`. -/
def memcpy4Loop (dest src c : Nat) (m : Mem) : Nat × Nat × Nat × Mem :=
  if h : 32 < c ∧ c < 2147483648 then
    memcpy4Loop (dest + 32) (src + 32) (c - 32) (chunk dest src 32 m)
  else if 32 ≤ c ∧ c < 2147483648 then
    (dest + 32, src + 32, 0, chunk dest src 32 m)
  else
    (dest, src, wrap (c + 4294967264), m)
termination_by c
decreasing_by omega

/-- The word-residual step of `__aeabi_memcpy4` (lines 85-92):
`lsls r3, r2, #29` puts bit 3 of the count in the carry flag and bit 2 in
the sign flag; `ldmcs/stmcs` then moves two words (8 bytes) and
`ldrmi/strmi` one word (4 bytes); `bics r2, r2, #0b1100` clears both bits
from the count.  Both conditional transfers fire independently. -/
def wordTier (dest src c : Nat) (m : Mem) : Nat × Nat × Nat × Mem :=
  let b3 := c.testBit 3
  let m1 := if b3 then chunk dest src 8 m else m
  let d1 := if b3 then dest + 8 else dest
  let s1 := if b3 then src + 8 else src
  let b2 := c.testBit 2
  let m2 := if b2 then chunk d1 s1 4 m1 else m1
  let d2 := if b2 then d1 + 4 else d1
  let s2 := if b2 then s1 + 4 else s1
  (d2, s2, c - ((if b3 then 8 else 0) + (if b2 then 4 else 0)), m2)

/-- The final halfword/byte step of `__aeabi_memcpy4` (lines 95-99):
`lsls r3, r2, #31` puts bit 1 of the count in the carry flag and bit 0 in
the sign flag; a halfword moves under `cs` and a byte under `mi`. -/
def halfByteTier (dest src c : Nat) (m : Mem) : Mem :=
  let b1 := c.testBit 1
  let m3 := if b1 then chunk dest src 2 m else m
  let d3 := if b1 then dest + 2 else dest
  let s3 := if b1 then src + 2 else src
  if c.testBit 0 then chunk d3 s3 1 m3 else m3

/-- The residual tiers of `__aeabi_memcpy4` (lines 77-100): 16 bytes as two
2-word blocks if bit 4 is set, then the word-residual step, then the
halfword/byte step; `bics`/`bxeq` exit early when the count register clears
to zero. -/
def memcpy4Tail (dest src c : Nat) (m : Mem) : Mem :=
  let b4 := c.testBit 4
  let m1 := if b4 then chunk (dest + 8) (src + 8) 8 (chunk dest src 8 m) else m
  let d1 := if b4 then dest + 16 else dest
  let s1 := if b4 then src + 16 else src
  let c1 := c - (if b4 then 16 else 0)     -- bics r2, r2, #0b10000
  if c1 = 0 then m1 else                    -- bxeq
  match wordTier d1 s1 c1 m1 with
  | (d2, s2, c2, m2) =>
    if c2 = 0 then m2 else                  -- bxeq
    halfByteTier d2 s2 c2 m2

/-- `__aeabi_memcpy4` (lines 61-103): when the count is unsigned-`≥ 32`, run
the 32-byte block loop (returning early if the count ended exactly at 0),
then the residual tiers. -/
def __aeabi_memcpy4 (dest src byte_count : Nat) (m : Mem) : Mem :=
  if 32 ≤ byte_count then
    match memcpy4Loop dest src byte_count m with
    | (d, s, c, m1) => if c = 0 then m1 else memcpy4Tail d s c m1
  else memcpy4Tail dest src byte_count m

/-- `__aeabi_memcpy8` (lines 113-117): delegates to `__aeabi_memcpy4`. -/
def __aeabi_memcpy8 (dest src byte_count : Nat) (m : Mem) : Mem :=
  __aeabi_memcpy4 dest src byte_count m

/-- The class-4 alignment fixup of `__aeabi_memcpy` (lines 146-152):
`lsls r3, r0, #31` places bit 0 of the ORIGINAL `dest` in the sign flag and
bit 1 of the ORIGINAL `dest` in the carry flag; a byte is copied under `mi`
and a halfword under `cs`, each advancing the pointers and decrementing the
count. -/
def memcpyFixup4 (dest src c : Nat) (m : Mem) : Nat × Nat × Nat × Mem :=
  let b0 := dest.testBit 0
  let m1 := if b0 then chunk dest src 1 m else m
  let d1 := if b0 then dest + 1 else dest
  let s1 := if b0 then src + 1 else src
  let c1 := if b0 then wrap (c + 4294967295) else c
  if dest.testBit 1 then (d1 + 2, s1 + 2, wrap (c1 + 4294967294), chunk d1 s1 2 m1)
  else (d1, s1, c1, m1)

/-- `__aeabi_memcpy` (lines 132-169): counts that are signed-`≤ 7` go to the
byte loop (`cmp r2,#7; ble`); otherwise `eor r3,r0,r1; lsls r3,#31`
dispatches on the low two bits of `dest eor src` (bit 0 set: byte loop;
bit 1 set: class 2 with a one-byte fixup when `dest` is odd; neither:
class 4 via `memcpyFixup4`). -/
def __aeabi_memcpy (dest src byte_count : Nat) (m : Mem) : Mem :=
  if byte_count ≤ 7 ∨ 2147483648 ≤ byte_count then
    __aeabi_memcpy1 dest src byte_count m
  else if (dest ^^^ src).testBit 0 then
    __aeabi_memcpy1 dest src byte_count m
  else if (dest ^^^ src).testBit 1 then
    if dest.testBit 0 then
      __aeabi_memcpy2 (dest + 1) (src + 1) (wrap (byte_count + 4294967295))
        (chunk dest src 1 m)
    else __aeabi_memcpy2 dest src byte_count m
  else
    match memcpyFixup4 dest src byte_count m with
    | (d, s, c, m1) => __aeabi_memcpy4 d s c m1

/-- `memcpy` (lines 182-195): pushes `r0`, calls `__aeabi_memcpy`, pops `r0`
back and returns it, so the returned pointer is the original `dest`. -/
def memcpy (dest src byte_count : Nat) (m : Mem) : Nat × Mem :=
  (dest, __aeabi_memcpy dest src byte_count m)

/-!
## Reverse copy helpers and the move family

Pointer decrements are modelled by adding `2^32 - k` (congruent modulo
`2^32`): `4294967295 = 2^32-1`, `4294967294 = 2^32-2`, `4294967292 = 2^32-4`,
`4294967288 = 2^32-8`, `4294967264 = 2^32-32`.
-/

/-- `reverse_copy_u8` (lines 203-218):
`1: subs c,#1; ldrbge t,[src,#-1]!; strbge t,[dest,#-1]!; bgt 1b`. -/
def reverse_copy_u8 (dest src byte_count : Nat) (m : Mem) : Mem :=
  if h : 1 < byte_count ∧ byte_count < 2147483648 then
    reverse_copy_u8 (dest + 4294967295) (src + 4294967295) (byte_count - 1)
      (chunk (dest + 4294967295) (src + 4294967295) 1 m)
  else if 1 ≤ byte_count ∧ byte_count < 2147483648 then
    chunk (dest + 4294967295) (src + 4294967295) 1 m
  else m
termination_by byte_count
decreasing_by omega

/-- The halfword loop of `reverse_copy_u16` (lines 227-238):
`1: subs c,#2; ldrhge t,[src,#-2]!; strhge t,[dest,#-2]!; bgt 1b`. -/
def rcopy2Loop (dest src c : Nat) (m : Mem) : Nat × Nat × Nat × Mem :=
  if h : 2 < c ∧ c < 2147483648 then
    rcopy2Loop (dest + 4294967294) (src + 4294967294) (c - 2)
      (chunk (dest + 4294967294) (src + 4294967294) 2 m)
  else if 2 ≤ c ∧ c < 2147483648 then
    (dest + 4294967294, src + 4294967294, 0,
      chunk (dest + 4294967294) (src + 4294967294) 2 m)
  else
    (dest, src, wrap (c + 4294967294), m)
termination_by c
decreasing_by omega

/-- `reverse_copy_u16` (lines 224-244): the descending halfword loop followed
by `if byte_count != 0 { (dest-1).write_volatile((src-1).read_volatile()) }`
on the loop's final register values. -/
def reverse_copy_u16 (dest src byte_count : Nat) (m : Mem) : Mem :=
  match rcopy2Loop dest src byte_count m with
  | (d, s, c, m1) =>
    if c ≠ 0 then chunk (d + 4294967295) (s + 4294967295) 1 m1 else m1

/-- The 32-byte descending block loop of `reverse_copy_u32` (lines 256-260):
`1: subs r2,#32; ldmdbcs r1!,{r3-r9,r12}; stmdbcs r0!,{...}; bgt 1b`.
The copy condition is the CARRY flag (unsigned `c ≥ 32`), the loop
condition is signed `c > 32`. -/
def rcopy4Loop (dest src c : Nat) (m : Mem) : Nat × Nat × Nat × Mem :=
  if h : 32 < c ∧ c < 2147483648 then
    rcopy4Loop (dest + 4294967264) (src + 4294967264) (c - 32)
      (chunk (dest + 4294967264) (src + 4294967264) 32 m)
  else if 32 ≤ c then
    (dest + 4294967264, src + 4294967264, c - 32,
      chunk (dest + 4294967264) (src + 4294967264) 32 m)
  else
    (dest, src, wrap (c + 4294967264), m)
termination_by c
decreasing_by omega

/-- The residual tiers of `reverse_copy_u32` (lines 266-288): 16 bytes as two
descending 2-word blocks if bit 4 is set (then `bics`/`bxeq`); then
`lsls r3,r2,#29`: 8 bytes under carry, one word under sign, returning early
(`bxeq`) iff `c % 8 = 0`; then `lsls r2,r2,#31`: a halfword under carry and
a byte under sign. -/
def rcopy4Tail (dest src c : Nat) (m : Mem) : Mem :=
  let b4 := c.testBit 4
  let m1 := if b4 then
      chunk (dest + 4294967288 + 4294967288) (src + 4294967288 + 4294967288) 8
        (chunk (dest + 4294967288) (src + 4294967288) 8 m)
    else m
  let d1 := if b4 then dest + 4294967288 + 4294967288 else dest
  let s1 := if b4 then src + 4294967288 + 4294967288 else src
  let c1 := c - (if b4 then 16 else 0)
  if c1 = 0 then m1 else
  let b3 := c1.testBit 3
  let m2 := if b3 then chunk (d1 + 4294967288) (s1 + 4294967288) 8 m1 else m1
  let d2 := if b3 then d1 + 4294967288 else d1
  let s2 := if b3 then s1 + 4294967288 else s1
  let b2 := c1.testBit 2
  let m3 := if b2 then chunk (d2 + 4294967292) (s2 + 4294967292) 4 m2 else m2
  let d3 := if b2 then d2 + 4294967292 else d2
  let s3 := if b2 then s2 + 4294967292 else s2
  if c1 % 8 = 0 then m3 else
  let b1 := c1.testBit 1
  let m4 := if b1 then chunk (d3 + 4294967294) (s3 + 4294967294) 2 m3 else m3
  let d4 := if b1 then d3 + 4294967294 else d3
  let s4 := if b1 then s3 + 4294967294 else s3
  if c1.testBit 0 then chunk (d4 + 4294967295) (s4 + 4294967295) 1 m4 else m4

/-- `reverse_copy_u32` (lines 250-291): when the count is unsigned-`≥ 32`,
run the descending block loop (returning early if the count ended exactly at
0), then the residual tiers. -/
def reverse_copy_u32 (dest src byte_count : Nat) (m : Mem) : Mem :=
  if 32 ≤ byte_count then
    match rcopy4Loop dest src byte_count m with
    | (d, s, c, m1) => if c = 0 then m1 else rcopy4Tail d s c m1
  else rcopy4Tail dest src byte_count m

/-- The backward branch of `__aeabi_memmove` (lines 334-359), taken when
`dest ≥ src` (unsigned): both pointers are advanced to one past the end,
`eor`/`lsls` dispatches on the low two bits of the end pointers, a
class-dependent fixup trims from the high end, and a descending copy routine
finishes.  In the class-2 arm the `tst r0, #1` result is unused: the
one-byte trim (`sub r2,#1; ldrb/strb` with pre-decrement) is unconditional.
In the class-4 arm the byte trim fires on bit 0 and the halfword trim on
bit 1 of the (original) end pointer. -/
def memmoveBackward (dest src byte_count : Nat) (m : Mem) : Mem :=
  let e := dest + byte_count
  let f := src + byte_count
  if (e ^^^ f).testBit 0 then reverse_copy_u8 e f byte_count m
  else if (e ^^^ f).testBit 1 then
    reverse_copy_u16 (e + 4294967295) (f + 4294967295)
      (wrap (byte_count + 4294967295))
      (chunk (e + 4294967295) (f + 4294967295) 1 m)
  else
    let b0 := e.testBit 0
    let m1 := if b0 then chunk (e + 4294967295) (f + 4294967295) 1 m else m
    let e1 := if b0 then e + 4294967295 else e
    let f1 := if b0 then f + 4294967295 else f
    let c1 := if b0 then wrap (byte_count + 4294967295) else byte_count
    if e.testBit 1 then
      reverse_copy_u32 (e1 + 4294967294) (f1 + 4294967294)
        (wrap (c1 + 4294967294))
        (chunk (e1 + 4294967294) (f1 + 4294967294) 2 m1)
    else reverse_copy_u32 e1 f1 c1 m1

/-- `__aeabi_memmove` (lines 329-368): `when r0 >=u r1` runs the backward
branch; otherwise it branches to `__aeabi_memcpy` (forward copy). -/
def __aeabi_memmove (dest src byte_count : Nat) (m : Mem) : Mem :=
  if src ≤ dest then memmoveBackward dest src byte_count m
  else __aeabi_memcpy dest src byte_count m

/-- `__aeabi_memmove4` (lines 301-305): delegates to `__aeabi_memmove`. -/
def __aeabi_memmove4 (dest src byte_count : Nat) (m : Mem) : Mem :=
  __aeabi_memmove dest src byte_count m

/-- `__aeabi_memmove8` (lines 315-319): delegates to `__aeabi_memmove`. -/
def __aeabi_memmove8 (dest src byte_count : Nat) (m : Mem) : Mem :=
  __aeabi_memmove dest src byte_count m

/-- `memmove` (lines 381-392): pushes `r0`, calls `__aeabi_memmove`, pops
`r0` back and returns it, so the returned pointer is the original `dest`. -/
def memmove (dest src byte_count : Nat) (m : Mem) : Nat × Mem :=
  (dest, __aeabi_memmove dest src byte_count m)

/-!
## The reference byte copy

`refCopy dest src n m` is the specification's reference transfer: each
destination byte receives the value the corresponding source byte held
before the transfer began, and every other address is untouched.  It also
serves as the reference implementation for the move family (copy the source
into a temporary buffer, then write the buffer to the destination).
-/

/-- Reference transfer: `dest[0..n)` receives the original `src[0..n)`;
all other addresses keep their value. -/
def refCopy (dest src n : Nat) (m : Mem) : Mem :=
  fun a => if dest ≤ a ∧ a < dest + n then m (src + (a - dest)) else m a

/-- Number of bytes moved by the word-residual step: 8 if bit 3 of the count
is set, plus 4 if bit 2 is set. -/
def wordTierLen (c : Nat) : Nat :=
  (if c.testBit 3 then 8 else 0) + (if c.testBit 2 then 4 else 0)

/-- Number of bytes moved by the halfword/byte step: 2 if bit 1 of the count
is set, plus 1 if bit 0 is set. -/
def halfByteLen (c : Nat) : Nat :=
  (if c.testBit 1 then 2 else 0) + (if c.testBit 0 then 1 else 0)

/-- The identity test memory: address `a` holds value `a`. -/
def idMem : Mem := fun a => a

/-- Test memory holding 1 at address `x` and 0 elsewhere. -/
def markMem (x : Nat) : Mem := fun a => if a = x then 1 else 0

/-!
## Proof layer
-/

@[simp] theorem wrap_wrap (a : Nat) : wrap (wrap a) = wrap a := by
  simp [wrap, Nat.mod_mod_of_dvd]

theorem wrap_small {a : Nat} (h : a < 4294967296) : wrap a = a := Nat.mod_eq_of_lt h

theorem wrap_lt (a : Nat) : wrap a < 4294967296 := Nat.mod_lt _ (by omega)

theorem wrap_add_left (a b : Nat) : wrap (wrap a + b) = wrap (a + b) := by
  simp [wrap, Nat.add_mod]

theorem wrap_add_right (a b : Nat) : wrap (a + wrap b) = wrap (a + b) := by
  simp [wrap, Nat.add_mod]

/-- Register decrement: subtracting `k ≤ c` from a 32-bit value `c`. -/
theorem wrap_dec {c k : Nat} (hk : k ≤ c) (hc : c < 4294967296) :
    wrap (c + (4294967296 - k)) = c - k := by
  have hk2 : k ≤ 4294967296 := by omega
  have : c + (4294967296 - k) = (c - k) + 4294967296 := by omega
  rw [this, wrap, Nat.add_mod_right, Nat.mod_eq_of_lt (by omega)]

theorem offsetOf_add {d i : Nat} (hi : i < 4294967296) :
    offsetOf (wrap (d + i)) d = i := by
  simp only [offsetOf, wrap]
  omega

theorem chunk_in {dest src k : Nat} {m : Mem} {i : Nat}
    (hi : i < k) (hk : k ≤ 4294967296) :
    chunk dest src k m (wrap (dest + i)) = m (wrap (src + i)) := by
  have h1 : offsetOf (wrap (dest + i)) dest = i := offsetOf_add (by omega)
  simp [chunk, h1, hi, wrap_lt]

theorem chunk_out {dest src k : Nat} {m : Mem} {a : Nat}
    (h : ∀ i, i < k → a ≠ wrap (dest + i)) : chunk dest src k m a = m a := by
  by_cases ha : a < 4294967296 ∧ offsetOf a dest < k
  · exfalso
    refine h (offsetOf a dest) ha.2 ?_
    simp only [offsetOf, wrap]
    omega
  · simp [chunk, ha]

/-- A chunk whose destination and source coincide leaves memory unchanged. -/
theorem chunk_self (d k : Nat) (m : Mem) : chunk d d k m = m := by
  funext a
  by_cases ha : a < 4294967296 ∧ offsetOf a d < k
  · have : wrap (d + offsetOf a d) = a := by
      simp only [offsetOf, wrap]; omega
    simp [chunk, ha, this]
  · simp [chunk, ha]

theorem chunk_congr_dest (d s k : Nat) (m : Mem) :
    chunk (wrap d) s k m = chunk d s k m := by
  funext a
  have : offsetOf a (wrap d) = offsetOf a d := by
    simp [offsetOf, wrap, Nat.mod_mod_of_dvd]
  simp [chunk, this]

theorem chunk_congr_src (d s k : Nat) (m : Mem) :
    chunk d (wrap s) k m = chunk d s k m := by
  funext a
  simp [chunk, wrap_add_left]

theorem refCopy_zero (d s : Nat) (m : Mem) : refCopy d s 0 m = m := by
  funext a
  simp only [refCopy]
  rw [if_neg (by omega)]

theorem refCopy_self (d n : Nat) (m : Mem) : refCopy d d n m = m := by
  funext a
  simp only [refCopy]
  split_ifs with h
  · congr 1; omega
  · rfl

/-- Within bounds, a single load/store pair is exactly a reference copy. -/
theorem chunk_eq_refCopy {d s k : Nat} (hd : d + k ≤ 4294967296)
    (hs : s + k ≤ 4294967296) (m : Mem) : chunk d s k m = refCopy d s k m := by
  funext a
  simp only [chunk, refCopy, offsetOf, wrap]
  split_ifs with h1 h2 h2
  · congr 1; omega
  · omega
  · omega
  · rfl

/-- Gluing: extending an already-transferred prefix `[0..j)` by a reference
copy of the next `k` bytes yields the reference copy of `[0..j+k)`.  Sound
when the regions are disjoint or the destination does not exceed the source
(the forward-safe arrangement). -/
theorem refCopy_glue {d s j k : Nat} (hov : s + (j + k) ≤ d ∨ d ≤ s) (m : Mem) :
    refCopy (d + j) (s + j) k (refCopy d s j m) = refCopy d s (j + k) m := by
  funext a
  by_cases hin : d + j ≤ a ∧ a < d + j + k
  · have harg : s + j + (a - (d + j)) = s + (a - d) := by omega
    have hinner : ¬(d ≤ s + (a - d) ∧ s + (a - d) < d + j) := by
      rcases hov with h | h <;> omega
    simp only [refCopy]
    rw [if_pos hin, harg, if_neg hinner, if_pos (by omega : d ≤ a ∧ a < d + (j + k))]
  · by_cases hhead : d ≤ a ∧ a < d + j
    · simp only [refCopy]
      rw [if_neg (by omega), if_pos hhead, if_pos (by omega)]
    · simp only [refCopy]
      rw [if_neg (by omega), if_neg hhead, if_neg (by omega)]

/-- One-step combination: a chunk at offset `j` extends a reference prefix. -/
theorem refCopy_step {d s j k : Nat} (hd : d + (j + k) ≤ 4294967296)
    (hs : s + (j + k) ≤ 4294967296) (hov : s + (j + k) ≤ d ∨ d ≤ s) (m : Mem) :
    chunk (d + j) (s + j) k (refCopy d s j m) = refCopy d s (j + k) m := by
  rw [chunk_eq_refCopy (by omega) (by omega), refCopy_glue hov]

/-!
## Byte-transfer-level correctness of the forward copy routines

Each forward routine equals `refCopy` on its arguments whenever the spans
fit in the address space without wrapping and the regions are either
disjoint or arranged forward-safely (`dest ≤ src`, which includes identical
regions).  These statements hold in the idealized byte-exact access model;
they are hardware-exact only for executions whose multi-byte accesses are
all aligned, which the class-4 fixup defect (see C1/C4) does not guarantee.
-/

theorem memcpy1_correct : ∀ (c d s : Nat) (m : Mem),
    d + c ≤ 4294967296 → s + c ≤ 4294967296 → (s + c ≤ d ∨ d ≤ s) →
    __aeabi_memcpy1 d s c m = refCopy d s c m := by
  intro c
  induction c with
  | zero => intro d s m _ _ _; rw [refCopy_zero]; rfl
  | succ c ih =>
    intro d s m hd hs hov
    show __aeabi_memcpy1 (d + 1) (s + 1) c (chunk d s 1 m) = _
    rw [show (chunk d s 1 m) = refCopy d s 1 m from
          chunk_eq_refCopy (by omega) (by omega) m]
    rw [ih (d + 1) (s + 1) _ (by omega) (by omega)
          (by rcases hov with h | h; exacts [Or.inl (by omega), Or.inr (by omega)])]
    rw [refCopy_glue (by rcases hov with h | h; exacts [Or.inl (by omega), Or.inr (by omega)])]
    rw [Nat.add_comm 1 c]

theorem memcpy2Loop_correct : ∀ (c d s : Nat) (m : Mem),
    1 ≤ c → c < 2147483648 → d + c ≤ 4294967296 → s + c ≤ 4294967296 →
    (s + c ≤ d ∨ d ≤ s) →
    memcpy2Loop d s c m =
      (d + 2 * (c / 2), s + 2 * (c / 2),
       if c % 2 = 0 then 0 else 4294967295,
       refCopy d s (2 * (c / 2)) m) := by
  intro c
  induction c using Nat.strong_induction_on with
  | _ c ih =>
    intro d s m h1 h2 hd hs hov
    rw [memcpy2Loop]
    by_cases hgt : 2 < c ∧ c < 2147483648
    · rw [dif_pos hgt]
      rw [show chunk d s 2 m = refCopy d s 2 m from chunk_eq_refCopy (by omega) (by omega) m]
      rw [ih (c - 2) (by omega) (d + 2) (s + 2) _ (by omega) (by omega) (by omega) (by omega)
            (by rcases hov with h | h; exacts [Or.inl (by omega), Or.inr (by omega)])]
      rw [refCopy_glue
            (by rcases hov with h | h; exacts [Or.inl (by omega), Or.inr (by omega)])]
      rw [show d + 2 + 2 * ((c - 2) / 2) = d + 2 * (c / 2) by omega]
      rw [show s + 2 + 2 * ((c - 2) / 2) = s + 2 * (c / 2) by omega]
      rw [show (c - 2) % 2 = c % 2 by omega]
      rw [show 2 + 2 * ((c - 2) / 2) = 2 * (c / 2) by omega]
    · rw [dif_neg hgt]
      by_cases hge : 2 ≤ c ∧ c < 2147483648
      · rw [if_pos hge]
        have hc : c = 2 := by omega
        subst hc
        rw [chunk_eq_refCopy (by omega) (by omega)]
        norm_num
      · rw [if_neg hge]
        have hc : c = 1 := by omega
        subst hc
        rw [refCopy_zero]
        norm_num [wrap]

theorem memcpy2_correct (d s c : Nat) (m : Mem)
    (h1 : 1 ≤ c) (h2 : c < 2147483648)
    (hd : d + c ≤ 4294967296) (hs : s + c ≤ 4294967296)
    (hov : s + c ≤ d ∨ d ≤ s) :
    __aeabi_memcpy2 d s c m = refCopy d s c m := by
  unfold __aeabi_memcpy2
  rw [memcpy2Loop_correct c d s m h1 h2 hd hs hov]
  by_cases hpar : c % 2 = 0
  · rw [if_pos hpar]
    dsimp only
    rw [if_neg (by omega)]
    rw [show 2 * (c / 2) = c by omega]
  · rw [if_neg hpar]
    dsimp only
    rw [if_pos (by omega)]
    rw [refCopy_step (by omega) (by omega)
          (by rcases hov with h | h; exacts [Or.inl (by omega), Or.inr (by omega)])]
    rw [show 2 * (c / 2) + 1 = c by omega]

theorem testBit_mod (x i p : Nat) (hp : 2 ^ i = p) :
    (x.testBit i = true) ↔ (x / p % 2 = 1) := by
  subst hp
  simp [Nat.testBit_to_div_mod]

theorem wordTierLen_div_mod (x : Nat) :
    wordTierLen x = 8 * (x / 8 % 2) + 4 * (x / 4 % 2) := by
  unfold wordTierLen
  by_cases h3 : x.testBit 3 <;> by_cases h2 : x.testBit 2
  · have a3 := (testBit_mod x 3 8 rfl).mp h3
    have a2 := (testBit_mod x 2 4 rfl).mp h2
    rw [if_pos h3, if_pos h2]; omega
  · have a3 := (testBit_mod x 3 8 rfl).mp h3
    have a2 : ¬ x / 4 % 2 = 1 := fun hh => h2 ((testBit_mod x 2 4 rfl).mpr hh)
    rw [if_pos h3, if_neg h2]; omega
  · have a3 : ¬ x / 8 % 2 = 1 := fun hh => h3 ((testBit_mod x 3 8 rfl).mpr hh)
    have a2 := (testBit_mod x 2 4 rfl).mp h2
    rw [if_neg h3, if_pos h2]; omega
  · have a3 : ¬ x / 8 % 2 = 1 := fun hh => h3 ((testBit_mod x 3 8 rfl).mpr hh)
    have a2 : ¬ x / 4 % 2 = 1 := fun hh => h2 ((testBit_mod x 2 4 rfl).mpr hh)
    rw [if_neg h3, if_neg h2]; omega

theorem halfByteLen_div_mod (x : Nat) :
    halfByteLen x = 2 * (x / 2 % 2) + x % 2 := by
  unfold halfByteLen
  have e0 : x / 1 = x := Nat.div_one x
  by_cases h1 : x.testBit 1 <;> by_cases h0 : x.testBit 0
  · have a1 := (testBit_mod x 1 2 rfl).mp h1
    have a0 := (testBit_mod x 0 1 rfl).mp h0
    rw [if_pos h1, if_pos h0]; omega
  · have a1 := (testBit_mod x 1 2 rfl).mp h1
    have a0 : ¬ x / 1 % 2 = 1 := fun hh => h0 ((testBit_mod x 0 1 rfl).mpr hh)
    rw [if_pos h1, if_neg h0]; omega
  · have a1 : ¬ x / 2 % 2 = 1 := fun hh => h1 ((testBit_mod x 1 2 rfl).mpr hh)
    have a0 := (testBit_mod x 0 1 rfl).mp h0
    rw [if_neg h1, if_pos h0]; omega
  · have a1 : ¬ x / 2 % 2 = 1 := fun hh => h1 ((testBit_mod x 1 2 rfl).mpr hh)
    have a0 : ¬ x / 1 % 2 = 1 := fun hh => h0 ((testBit_mod x 0 1 rfl).mpr hh)
    rw [if_neg h1, if_neg h0]; omega

theorem wordTier_spec (d s c : Nat) (m : Mem)
    (hd : d + wordTierLen c ≤ 4294967296) (hs : s + wordTierLen c ≤ 4294967296)
    (hov : s + wordTierLen c ≤ d ∨ d ≤ s) :
    wordTier d s c m =
      (d + wordTierLen c, s + wordTierLen c, c - wordTierLen c,
       refCopy d s (wordTierLen c) m) := by
  have hff : (false = true) = False := by simp
  by_cases h3 : c.testBit 3 <;> by_cases h2 : c.testBit 2
  · have hlen : wordTierLen c = 12 := by rw [wordTierLen, if_pos h3, if_pos h2]
    rw [hlen] at hd hs hov
    have e1 := @chunk_eq_refCopy d s 8 (by omega) (by omega) m
    have e2 := @refCopy_step d s 8 4 (by omega) (by omega) (by omega) m
    simp only [wordTier, h3, h2, hff, if_true, if_false, hlen, e1, e2]
    try norm_num
  · have hlen : wordTierLen c = 8 := by rw [wordTierLen, if_pos h3, if_neg h2]
    rw [hlen] at hd hs hov
    have e1 := @chunk_eq_refCopy d s 8 (by omega) (by omega) m
    simp only [wordTier, h3, h2, hff, if_true, if_false, hlen, e1]
    try norm_num
  · have hlen : wordTierLen c = 4 := by rw [wordTierLen, if_neg h3, if_pos h2]
    rw [hlen] at hd hs hov
    have e1 := @chunk_eq_refCopy d s 4 (by omega) (by omega) m
    simp only [wordTier, h3, h2, hff, if_true, if_false, hlen, e1]
    try norm_num
  · have hlen : wordTierLen c = 0 := by rw [wordTierLen, if_neg h3, if_neg h2]
    simp only [wordTier, h3, h2, hff, if_true, if_false, hlen, refCopy_zero]
    try norm_num

theorem halfByteTier_spec (d s c : Nat) (m : Mem)
    (hd : d + halfByteLen c ≤ 4294967296) (hs : s + halfByteLen c ≤ 4294967296)
    (hov : s + halfByteLen c ≤ d ∨ d ≤ s) :
    halfByteTier d s c m = refCopy d s (halfByteLen c) m := by
  have hff : (false = true) = False := by simp
  by_cases h1 : c.testBit 1 <;> by_cases h0 : c.testBit 0
  · have hlen : halfByteLen c = 3 := by rw [halfByteLen, if_pos h1, if_pos h0]
    rw [hlen] at hd hs hov
    have e1 := @chunk_eq_refCopy d s 2 (by omega) (by omega) m
    have e2 := @refCopy_step d s 2 1 (by omega) (by omega) (by omega) m
    simp only [halfByteTier, h1, h0, hff, if_true, if_false, hlen, e1, e2]
    try norm_num
  · have hlen : halfByteLen c = 2 := by rw [halfByteLen, if_pos h1, if_neg h0]
    rw [hlen] at hd hs hov
    have e1 := @chunk_eq_refCopy d s 2 (by omega) (by omega) m
    simp only [halfByteTier, h1, h0, hff, if_true, if_false, hlen, e1]
    try norm_num
  · have hlen : halfByteLen c = 1 := by rw [halfByteLen, if_neg h1, if_pos h0]
    rw [hlen] at hd hs hov
    have e1 := @chunk_eq_refCopy d s 1 (by omega) (by omega) m
    simp only [halfByteTier, h1, h0, hff, if_true, if_false, hlen, e1]
    try norm_num
  · have hlen : halfByteLen c = 0 := by rw [halfByteLen, if_neg h1, if_neg h0]
    simp only [halfByteTier, h1, h0, hff, if_true, if_false, hlen, refCopy_zero]
    try norm_num

theorem memcpy4Loop_correct : ∀ (c d s : Nat) (m : Mem),
    1 ≤ c → c < 2147483648 → d + c ≤ 4294967296 → s + c ≤ 4294967296 →
    (s + c ≤ d ∨ d ≤ s) →
    memcpy4Loop d s c m =
      (d + 32 * (c / 32), s + 32 * (c / 32),
       if c % 32 = 0 then 0 else 4294967264 + c % 32,
       refCopy d s (32 * (c / 32)) m) := by
  intro c
  induction c using Nat.strong_induction_on with
  | _ c ih =>
    intro d s m h1 h2 hd hs hov
    rw [memcpy4Loop]
    by_cases hgt : 32 < c ∧ c < 2147483648
    · rw [dif_pos hgt]
      rw [show chunk d s 32 m = refCopy d s 32 m from chunk_eq_refCopy (by omega) (by omega) m]
      rw [ih (c - 32) (by omega) (d + 32) (s + 32) _ (by omega) (by omega) (by omega) (by omega)
            (by rcases hov with h | h; exacts [Or.inl (by omega), Or.inr (by omega)])]
      rw [refCopy_glue
            (by rcases hov with h | h; exacts [Or.inl (by omega), Or.inr (by omega)])]
      rw [show d + 32 + 32 * ((c - 32) / 32) = d + 32 * (c / 32) by omega]
      rw [show s + 32 + 32 * ((c - 32) / 32) = s + 32 * (c / 32) by omega]
      rw [show (c - 32) % 32 = c % 32 by omega]
      rw [show 32 + 32 * ((c - 32) / 32) = 32 * (c / 32) by omega]
    · rw [dif_neg hgt]
      by_cases hge : 32 ≤ c ∧ c < 2147483648
      · rw [if_pos hge]
        have hc : c = 32 := by omega
        subst hc
        rw [chunk_eq_refCopy (by omega) (by omega)]
        norm_num
      · rw [if_neg hge]
        have hlt : c < 32 := by omega
        rw [wrap_small (by omega)]
        rw [show 32 * (c / 32) = 0 by omega, refCopy_zero,
            show c % 32 = c by omega, if_neg (by omega),
            show (4294967264 : Nat) + c = c + 4294967264 by omega]
        norm_num

theorem memcpy4Tail_correct (d s c : Nat) (m : Mem)
    (hd : d + c % 32 ≤ 4294967296) (hs : s + c % 32 ≤ 4294967296)
    (hov : s + c % 32 ≤ d ∨ d ≤ s) :
    memcpy4Tail d s c m = refCopy d s (c % 32) m := by
  have hff : (false = true) = False := by simp
  have hW1 := wordTierLen_div_mod (c - 16)
  have hW0 := wordTierLen_div_mod c
  by_cases hb4 : c.testBit 4
  · have a4 : c / 16 % 2 = 1 := (testBit_mod c 4 16 rfl).mp hb4
    simp only [memcpy4Tail, hb4, if_true]
    by_cases hc1 : c - 16 = 0
    · have hc : c = 16 := by omega
      subst hc
      rw [if_pos hc1]
      have e1 := @chunk_eq_refCopy d s 8 (by omega) (by omega) m
      have e2 := @refCopy_step d s 8 8 (by omega) (by omega)
        (by rcases hov with h | h; exacts [Or.inl (by omega), Or.inr (by omega)]) m
      rw [e1, e2]
    · rw [if_neg hc1]
      have hr16 : 16 ≤ c % 32 := by omega
      have e1 := @chunk_eq_refCopy d s 8 (by omega) (by omega) m
      have e2 := @refCopy_step d s 8 8 (by omega) (by omega)
        (by rcases hov with h | h; exacts [Or.inl (by omega), Or.inr (by omega)]) m
      rw [show (8:Nat) + 8 = 16 from rfl] at e2
      rw [e1, e2]
      rw [wordTier_spec (d + 16) (s + 16) (c - 16) _ (by omega) (by omega)
            (by rcases hov with h | h; exacts [Or.inl (by omega), Or.inr (by omega)])]
      dsimp only
      rw [refCopy_glue
            (by rcases hov with h | h; exacts [Or.inl (by omega), Or.inr (by omega)])]
      by_cases hc2 : c - 16 - wordTierLen (c - 16) = 0
      · rw [if_pos hc2]
        rw [show c % 32 = 16 + wordTierLen (c - 16) by omega]
      · rw [if_neg hc2]
        have hL := halfByteLen_div_mod (c - 16 - wordTierLen (c - 16))
        rw [halfByteTier_spec (d + 16 + wordTierLen (c - 16))
              (s + 16 + wordTierLen (c - 16)) (c - 16 - wordTierLen (c - 16)) _
              (by omega) (by omega)
              (by rcases hov with h | h; exacts [Or.inl (by omega), Or.inr (by omega)])]
        rw [show d + 16 + wordTierLen (c - 16) = d + (16 + wordTierLen (c - 16)) by omega]
        rw [show s + 16 + wordTierLen (c - 16) = s + (16 + wordTierLen (c - 16)) by omega]
        rw [refCopy_glue
              (by rcases hov with h | h; exacts [Or.inl (by omega), Or.inr (by omega)])]
        rw [show 16 + wordTierLen (c - 16) + halfByteLen (c - 16 - wordTierLen (c - 16))
              = c % 32 by omega]
  · have a4 : c / 16 % 2 = 0 := by
      have hne : ¬ c / 16 % 2 = 1 := fun hh => hb4 ((testBit_mod c 4 16 rfl).mpr hh)
      omega
    simp only [memcpy4Tail, hb4, hff, if_true, if_false, Nat.sub_zero]
    by_cases hc1 : c = 0
    · subst hc1
      rw [if_pos rfl, refCopy_zero]
    · rw [if_neg hc1]
      have hlt16 : c % 32 < 16 := by omega
      rw [wordTier_spec d s c _ (by omega) (by omega)
            (by rcases hov with h | h; exacts [Or.inl (by omega), Or.inr (by omega)])]
      dsimp only
      by_cases hc2 : c - wordTierLen c = 0
      · rw [if_pos hc2]
        rw [show c % 32 = wordTierLen c by omega]
      · rw [if_neg hc2]
        have hL := halfByteLen_div_mod (c - wordTierLen c)
        rw [halfByteTier_spec (d + wordTierLen c) (s + wordTierLen c)
              (c - wordTierLen c) _ (by omega) (by omega)
              (by rcases hov with h | h; exacts [Or.inl (by omega), Or.inr (by omega)])]
        rw [refCopy_glue
              (by rcases hov with h | h; exacts [Or.inl (by omega), Or.inr (by omega)])]
        rw [show wordTierLen c + halfByteLen (c - wordTierLen c) = c % 32 by omega]

theorem memcpy4_correct (d s c : Nat) (m : Mem)
    (h2 : c < 2147483648)
    (hd : d + c ≤ 4294967296) (hs : s + c ≤ 4294967296)
    (hov : s + c ≤ d ∨ d ≤ s) :
    __aeabi_memcpy4 d s c m = refCopy d s c m := by
  unfold __aeabi_memcpy4
  by_cases h32 : 32 ≤ c
  · rw [if_pos h32, memcpy4Loop_correct c d s m (by omega) h2 hd hs hov]
    dsimp only
    by_cases hr : c % 32 = 0
    · rw [if_pos hr]
      try dsimp only
      rw [if_pos rfl]
      rw [show 32 * (c / 32) = c by omega]
    · rw [if_neg hr]
      try dsimp only
      rw [if_neg (by omega)]
      have hmod : (4294967264 + c % 32) % 32 = c % 32 := by omega
      rw [memcpy4Tail_correct (d + 32 * (c / 32)) (s + 32 * (c / 32))
            (4294967264 + c % 32) _
            (by rw [hmod]; omega) (by rw [hmod]; omega)
            (by rw [hmod]
                rcases hov with h | h; exacts [Or.inl (by omega), Or.inr (by omega)])]
      rw [hmod]
      rw [refCopy_glue
            (by rcases hov with h | h; exacts [Or.inl (by omega), Or.inr (by omega)])]
      rw [show 32 * (c / 32) + c % 32 = c by omega]
  · rw [if_neg h32]
    rw [memcpy4Tail_correct d s c m (by omega) (by omega)
          (by rcases hov with h | h; exacts [Or.inl (by omega), Or.inr (by omega)])]
    rw [show c % 32 = c by omega]

theorem memcpy_correct (d s c : Nat) (m : Mem)
    (hc : c < 4294967296)
    (hd : d + c ≤ 4294967296) (hs : s + c ≤ 4294967296)
    (hov : s + c ≤ d ∨ d ≤ s) :
    __aeabi_memcpy d s c m = refCopy d s c m := by
  have hff : (false = true) = False := by simp
  unfold __aeabi_memcpy
  by_cases hsmall : c ≤ 7 ∨ 2147483648 ≤ c
  · rw [if_pos hsmall]
    exact memcpy1_correct c d s m hd hs hov
  · rw [if_neg hsmall]
    by_cases hx0 : (d ^^^ s).testBit 0
    · rw [if_pos hx0]
      exact memcpy1_correct c d s m hd hs hov
    · rw [if_neg hx0]
      by_cases hx1 : (d ^^^ s).testBit 1
      · rw [if_pos hx1]
        by_cases hd0 : d.testBit 0
        · rw [if_pos hd0]
          rw [show (4294967295:Nat) = 4294967296 - 1 from rfl, wrap_dec (by omega) (by omega)]
          rw [@chunk_eq_refCopy d s 1 (by omega) (by omega) m]
          rw [memcpy2_correct (d + 1) (s + 1) (c - 1) _ (by omega) (by omega) (by omega)
                (by omega)
                (by rcases hov with h | h; exacts [Or.inl (by omega), Or.inr (by omega)])]
          rw [refCopy_glue
                (by rcases hov with h | h; exacts [Or.inl (by omega), Or.inr (by omega)])]
          rw [show 1 + (c - 1) = c by omega]
        · rw [if_neg hd0]
          exact memcpy2_correct d s c m (by omega) (by omega) hd hs hov
      · rw [if_neg hx1]
        by_cases hd0 : d.testBit 0 <;> by_cases hd1 : d.testBit 1
        · have hfix : memcpyFixup4 d s c m
              = (d + 1 + 2, s + 1 + 2, wrap (wrap (c + 4294967295) + 4294967294),
                 chunk (d + 1) (s + 1) 2 (chunk d s 1 m)) := by
            simp only [memcpyFixup4, hd0, hd1, if_true]
          rw [hfix]
          dsimp only
          rw [show wrap (c + 4294967295) = c - 1 by
                rw [show (4294967295:Nat) = 4294967296 - 1 from rfl,
                   wrap_dec (by omega) (by omega)]]
          rw [show wrap (c - 1 + 4294967294) = c - 3 by
                rw [show (4294967294:Nat) = 4294967296 - 2 from rfl,
                   wrap_dec (by omega) (by omega)]
                omega]
          rw [@chunk_eq_refCopy d s 1 (by omega) (by omega) m]
          rw [@refCopy_step d s 1 2 (by omega) (by omega)
                (by rcases hov with h | h; exacts [Or.inl (by omega), Or.inr (by omega)]) m]
          rw [show (1:Nat) + 2 = 3 from rfl]
          rw [memcpy4_correct (d + 1 + 2) (s + 1 + 2) (c - 3) _ (by omega) (by omega)
                (by omega)
                (by rcases hov with h | h; exacts [Or.inl (by omega), Or.inr (by omega)])]
          rw [show d + 1 + 2 = d + 3 by omega, show s + 1 + 2 = s + 3 by omega]
          rw [refCopy_glue
                (by rcases hov with h | h; exacts [Or.inl (by omega), Or.inr (by omega)])]
          rw [show 3 + (c - 3) = c by omega]
        · have hfix : memcpyFixup4 d s c m
              = (d + 1, s + 1, wrap (c + 4294967295), chunk d s 1 m) := by
            simp only [memcpyFixup4, hd0, hd1, hff, if_true, if_false]
          rw [hfix]
          dsimp only
          rw [show wrap (c + 4294967295) = c - 1 by
                rw [show (4294967295:Nat) = 4294967296 - 1 from rfl,
                   wrap_dec (by omega) (by omega)]]
          rw [@chunk_eq_refCopy d s 1 (by omega) (by omega) m]
          rw [memcpy4_correct (d + 1) (s + 1) (c - 1) _ (by omega) (by omega) (by omega)
                (by rcases hov with h | h; exacts [Or.inl (by omega), Or.inr (by omega)])]
          rw [refCopy_glue
                (by rcases hov with h | h; exacts [Or.inl (by omega), Or.inr (by omega)])]
          rw [show 1 + (c - 1) = c by omega]
        · have hfix : memcpyFixup4 d s c m
              = (d + 2, s + 2, wrap (c + 4294967294), chunk d s 2 m) := by
            simp only [memcpyFixup4, hd0, hd1, hff, if_true, if_false]
          rw [hfix]
          dsimp only
          rw [show wrap (c + 4294967294) = c - 2 by
                rw [show (4294967294:Nat) = 4294967296 - 2 from rfl,
                   wrap_dec (by omega) (by omega)]]
          rw [@chunk_eq_refCopy d s 2 (by omega) (by omega) m]
          rw [memcpy4_correct (d + 2) (s + 2) (c - 2) _ (by omega) (by omega) (by omega)
                (by rcases hov with h | h; exacts [Or.inl (by omega), Or.inr (by omega)])]
          rw [refCopy_glue
                (by rcases hov with h | h; exacts [Or.inl (by omega), Or.inr (by omega)])]
          rw [show 2 + (c - 2) = c by omega]
        · have hfix : memcpyFixup4 d s c m = (d, s, c, m) := by
            simp only [memcpyFixup4, hd0, hd1, hff, if_true, if_false]
          rw [hfix]
          dsimp only
          exact memcpy4_correct d s c m (by omega) hd hs hov

/-!
## Self-move: every routine applied with `dest = src` is the identity

Every load/store pair with coinciding pointers writes back the bytes it just
read, so memory is unchanged throughout.
-/

theorem reverse_copy_u8_self : ∀ (c d : Nat) (m : Mem), reverse_copy_u8 d d c m = m := by
  intro c
  induction c using Nat.strong_induction_on with
  | _ c ih =>
    intro d m
    rw [reverse_copy_u8]
    split_ifs with h1 h2
    · rw [chunk_self]
      exact ih (c - 1) (by omega) _ m
    · rw [chunk_self]
    · rfl

theorem rcopy2Loop_self : ∀ (c d : Nat) (m : Mem),
    ∃ p q : Nat, rcopy2Loop d d c m = (p, p, q, m) := by
  intro c
  induction c using Nat.strong_induction_on with
  | _ c ih =>
    intro d m
    rw [rcopy2Loop]
    split_ifs with h1 h2
    · rw [chunk_self]
      exact ih (c - 2) (by omega) _ m
    · rw [chunk_self]
      exact ⟨_, _, rfl⟩
    · exact ⟨_, _, rfl⟩

theorem reverse_copy_u16_self (d c : Nat) (m : Mem) : reverse_copy_u16 d d c m = m := by
  unfold reverse_copy_u16
  obtain ⟨p, q, hpq⟩ := rcopy2Loop_self c d m
  rw [hpq]
  dsimp only
  split_ifs with h
  · rw [chunk_self]
  · rfl

theorem rcopy4Loop_self : ∀ (c d : Nat) (m : Mem),
    ∃ p q : Nat, rcopy4Loop d d c m = (p, p, q, m) := by
  intro c
  induction c using Nat.strong_induction_on with
  | _ c ih =>
    intro d m
    rw [rcopy4Loop]
    split_ifs with h1 h2
    · rw [chunk_self]
      exact ih (c - 32) (by omega) _ m
    · rw [chunk_self]
      exact ⟨_, _, rfl⟩
    · exact ⟨_, _, rfl⟩

theorem rcopy4Tail_self (d c : Nat) (m : Mem) : rcopy4Tail d d c m = m := by
  simp [rcopy4Tail, chunk_self, ite_self]

theorem reverse_copy_u32_self (d c : Nat) (m : Mem) : reverse_copy_u32 d d c m = m := by
  unfold reverse_copy_u32
  obtain ⟨p, q, hpq⟩ := rcopy4Loop_self c d m
  rw [hpq]
  dsimp only
  split_ifs with h1 h2
  · rfl
  · exact rcopy4Tail_self p q m
  · exact rcopy4Tail_self d c m

theorem memmoveBackward_self (d c : Nat) (m : Mem) : memmoveBackward d d c m = m := by
  simp [memmoveBackward, Nat.xor_self, Nat.zero_testBit, chunk_self,
    reverse_copy_u32_self, reverse_copy_u16_self, reverse_copy_u8_self, ite_self]

/-!
## Claim theorems
-/

/-- C1: refuted on the code — the copy is not byte-correct for every
alignment.  At `__aeabi_memcpy(dest=1, src=101, byte_count=8)` (disjoint
regions, coalignment class 4, both pointers odd; the general entry point has
no alignment precondition) the class-4 fixup trims only one byte, because
its flags come from the ORIGINAL `dest`, and the 4-aligned bulk routine
`__aeabi_memcpy4` is entered with `dest = 2`, `src = 102` — both
`≡ 2 (mod 4)`, violating its documented 4-alignment precondition.  On the
ARMv4 target the resulting misaligned word accesses force-align and rotate
(`strmi` at 2 writes addresses 0..3, outside `dest[0..8)`; `ldrmi` at 102
loads the word at 100 rotated), so `dest[0..n)` does not receive the
original `src[0..n)` and memory outside `dest` is modified. -/
theorem c1_memcpy_enters_bulk_misaligned :
    (1 ^^^ 101).testBit 0 = false ∧ (1 ^^^ 101).testBit 1 = false ∧
    (∀ m : Mem, __aeabi_memcpy 1 101 8 m = __aeabi_memcpy4 2 102 7 (chunk 1 101 1 m)) ∧
    2 % 4 = 2 ∧ 102 % 4 = 2 := by
  have hfix : ∀ m : Mem, memcpyFixup4 1 101 8 m = (2, 102, 7, chunk 1 101 1 m) := by
    intro m
    simp +decide [memcpyFixup4, wrap]
  refine ⟨by decide, by decide, fun m => ?_, by decide, by decide⟩
  rw [__aeabi_memcpy, if_neg (by decide), if_neg (by decide), if_neg (by decide), hfix m]

/-- C2: refuted on the code.  `__aeabi_memmove(dest=6, src=2, byte_count=1)`
(dest ≥ src, coalignment class 4, end pointer ≡ 3 mod 4) runs the backward
class-4 fixup with no small-count guard: after the one correct byte, the
halfword trim underflows the count register to `2^32 - 2` and writes
addresses 4 and 5, which lie outside the destination region `[6, 7)`.  The
reference implementation (`refCopy`) leaves address 4 unchanged. -/
theorem c2_memmove_differs_from_reference :
    __aeabi_memmove 6 2 1 (markMem 0) 4 = 1 ∧ refCopy 6 2 1 (markMem 0) 4 = 0 := by
  constructor
  · simp +decide [__aeabi_memmove, memmoveBackward, reverse_copy_u32, rcopy4Loop,
      rcopy4Tail, chunk, offsetOf, wrap, markMem]
  · simp [refCopy, markMem]

/-- C3: refuted on the code.  `__aeabi_memcpy2(dest=40, src=30, byte_count=0)`
dereferences both pointers: the halfword loop exits with the count register
at `2^32 - 2` (the wrapped `subs` result), so the `byte_count != 0` trailing
check fires and copies one byte from `src` to `dest`, modifying memory. -/
theorem c3_memcpy2_zero_count_accesses_memory :
    __aeabi_memcpy2 40 30 0 (markMem 30) 40 = 1 ∧ markMem 30 40 = 0 := by
  constructor
  · simp +decide [__aeabi_memcpy2, memcpy2Loop, chunk, offsetOf, wrap, markMem]
  · simp [markMem]

/-- C4: refuted on the code.  `__aeabi_memcpy(dest=1, src=5, byte_count=8)`
has coalignment class 4 (`dest eor src = 4`, low two bits clear), but the
class-4 fixup tests bit 1 of the ORIGINAL `dest`, so for `dest ≡ 1 (mod 4)`
it copies only one byte and enters `__aeabi_memcpy4` with both pointers
`≡ 2 (mod 4)` — not 4-aligned. -/
theorem c4_class4_fixup_leaves_pointers_misaligned :
    (1 ^^^ 5).testBit 0 = false ∧ (1 ^^^ 5).testBit 1 = false ∧
    (∀ m : Mem, (memcpyFixup4 1 5 8 m).1 % 4 = 2 ∧
      (memcpyFixup4 1 5 8 m).2.1 % 4 = 2) ∧
    (∀ m : Mem, __aeabi_memcpy 1 5 8 m = __aeabi_memcpy4 2 6 7 (chunk 1 5 1 m)) := by
  have hfix : ∀ m : Mem, memcpyFixup4 1 5 8 m = (2, 6, 7, chunk 1 5 1 m) := by
    intro m
    simp +decide [memcpyFixup4, wrap]
  refine ⟨by decide, by decide, fun m => ?_, fun m => ?_⟩
  · rw [hfix m]
    exact ⟨by norm_num, by norm_num⟩
  · rw [__aeabi_memcpy, if_neg (by decide), if_neg (by decide), if_neg (by decide), hfix m]

/-- C5: refuted on the code.  With both pointers even (the tier's alignment
precondition) and byte count 0 (within the claimed range 0..65, with empty
and hence disjoint regions), `__aeabi_memcpy2` writes one byte at `dest`
while the general entry point `__aeabi_memcpy` leaves memory untouched, so
the two are not identical. -/
theorem c5_memcpy2_differs_from_general_at_zero :
    __aeabi_memcpy2 20 10 0 (markMem 10) 20 = 1 ∧
    __aeabi_memcpy 20 10 0 (markMem 10) 20 = 0 ∧ markMem 10 20 = 0 := by
  refine ⟨?_, ?_, by simp [markMem]⟩
  · simp +decide [__aeabi_memcpy2, memcpy2Loop, chunk, offsetOf, wrap, markMem]
  · simp +decide [__aeabi_memcpy, __aeabi_memcpy1, markMem]

/-- C6: `__aeabi_memmove` selects the backward (high-to-low) pipeline exactly
when `dest ≥ src` as unsigned addresses — including `dest = src` — and the
forward path (a plain `__aeabi_memcpy`) exactly when `dest < src`. -/
theorem c6_memmove_direction_selection (d s c : Nat) (m : Mem) :
    (s ≤ d → __aeabi_memmove d s c m = memmoveBackward d s c m) ∧
    (d < s → __aeabi_memmove d s c m = __aeabi_memcpy d s c m) := by
  constructor <;> intro h
  · rw [__aeabi_memmove, if_pos h]
  · rw [__aeabi_memmove, if_neg (by omega)]

theorem c6_memmove_direction_selection_witness :
    __aeabi_memmove 5 3 2 idMem = memmoveBackward 5 3 2 idMem ∧
    __aeabi_memmove 3 5 2 idMem = __aeabi_memcpy 3 5 2 idMem :=
  ⟨(c6_memmove_direction_selection 5 3 2 idMem).1 (by decide),
   (c6_memmove_direction_selection 3 5 2 idMem).2 (by decide)⟩

/-- C7 counterexample: at remaining count 12 both bit 3 and bit 2 are set;
the word-residual step moves 12 bytes (pointer advances by 12, and the byte
at `dest + 8` is written), not exactly 8, and the single-word transfer
happens even though the 8-byte bit is set — contradicting the claim's
"only otherwise". -/
theorem c7_word_tier_counterexample :
    (wordTier 0 100 12 idMem).1 = 12 ∧
    (wordTier 0 100 12 idMem).2.2.2 8 = 108 ∧ idMem 8 = 8 := by
  refine ⟨by decide, ?_, rfl⟩
  simp +decide [wordTier, chunk, offsetOf, wrap, idMem]

/-- C7 amended: in the word-residual step of `__aeabi_memcpy4`, an 8-byte
(two-word) transfer is performed iff bit 3 of the remaining count is set and
a single-word (4-byte) transfer iff bit 2 is set, independently — so the
step moves `wordTierLen` = 8·bit3 + 4·bit2 bytes, correctly, and clears
exactly those bits from the count. -/
theorem c7_word_tier_amended (d s c : Nat) (m : Mem)
    (hd : d + wordTierLen c ≤ 4294967296) (hs : s + wordTierLen c ≤ 4294967296)
    (hov : s + wordTierLen c ≤ d ∨ d ≤ s) :
    wordTier d s c m =
      (d + wordTierLen c, s + wordTierLen c, c - wordTierLen c,
       refCopy d s (wordTierLen c) m) ∧
    wordTierLen c = (if c.testBit 3 then 8 else 0) + (if c.testBit 2 then 4 else 0) :=
  ⟨wordTier_spec d s c m hd hs hov, rfl⟩

theorem c7_word_tier_amended_witness :
    wordTier 4 100 12 idMem =
      (4 + wordTierLen 12, 100 + wordTierLen 12, 12 - wordTierLen 12,
       refCopy 4 100 (wordTierLen 12) idMem) :=
  (c7_word_tier_amended 4 100 12 idMem (by decide) (by decide) (Or.inr (by decide))).1

/-- C8: a self-move (`dest = src = p`, any byte count) leaves the buffer at
`p` — and all other memory — unchanged: every load/store pair reads and
rewrites the same addresses. -/
theorem c8_self_move_identity (p n : Nat) (m : Mem) :
    __aeabi_memmove p p n m = m := by
  rw [__aeabi_memmove, if_pos (Nat.le_refl p)]
  exact memmoveBackward_self p n m

/-- C9: the standard-ABI variants return the destination base address passed
in, unchanged, and their effect on memory is exactly that of the
corresponding fast variant on the same arguments. -/
theorem c9_standard_abi_wrappers (d s n : Nat) (m : Mem) :
    (memcpy d s n m).1 = d ∧ (memcpy d s n m).2 = __aeabi_memcpy d s n m ∧
    (memmove d s n m).1 = d ∧ (memmove d s n m).2 = __aeabi_memmove d s n m :=
  ⟨rfl, rfl, rfl, rfl⟩

/-- C10: each width-suffixed entry point is a pure delegation for every
argument triple: `__aeabi_memmove4` and `__aeabi_memmove8` are
`__aeabi_memmove`, and `__aeabi_memcpy8` is `__aeabi_memcpy4`. -/
theorem c10_width_suffixed_delegation (d s n : Nat) (m : Mem) :
    __aeabi_memmove4 d s n m = __aeabi_memmove d s n m ∧
    __aeabi_memmove8 d s n m = __aeabi_memmove d s n m ∧
    __aeabi_memcpy8 d s n m = __aeabi_memcpy4 d s n m :=
  ⟨rfl, rfl, rfl⟩
